import Mathlib

/- Shallow embedding of src/src/ifcclash/ifcclash.py, the clash-detection
pipeline of ifcclash. Pure data is rendered with Lean lists and rationals;
Python dict assignment is rendered as an in-place association-list update
(overwrite keeps the position of the first write, a fresh key is appended);
fallible Python operations (list indexing, entity resolution by id) are
rendered with Option and Except. External collaborators (the IFC model
accessor, the geometry iterator and the collision query engine) enter as
parameters, exactly at the interface the code consumes. -/

set_option autoImplicit false

/- Python dict lookup d.get(k) over an association list. -/
def getValue {α : Type} (k : String) : List (String × α) → Option α
  | [] => none
  | (k₂, v) :: rest => if k₂ = k then some v else getValue k rest

/- Python dict assignment d[k] = v over an association list: an existing key
keeps its position and its value is overwritten, a fresh key is appended. -/
def setValue {α : Type} (k : String) (v : α) : List (String × α) → List (String × α)
  | [] => [(k, v)]
  | (k₂, v₂) :: rest => if k₂ = k then (k, v) :: rest else (k₂, v₂) :: setValue k v rest

/- Keys of a Python dict in iteration order. -/
def dictKeys {α : Type} (d : List (String × α)) : List String :=
  d.map Prod.fst

/- Values of a Python dict in iteration order, list(d.values()). -/
def dictValues {α : Type} (d : List (String × α)) : List α :=
  d.map Prod.snd

/- The Mesh class of ifcclash.py: vertices grouped in 3-tuples of
coordinates, faces grouped in 3-tuples of vertex indices. -/
structure Mesh where
  vertices : List (ℚ × ℚ × ℚ)
  faces : List (ℕ × ℕ × ℕ)
deriving DecidableEq

/- The body [l[i], l[i+1], l[i+2]] of the comprehension in create_mesh:
three indexed reads from the flat buffer; an out-of-range read (a Python
IndexError) yields none. -/
def readTriple {α : Type} (l : List α) (i : ℕ) : Option (α × α × α) :=
  match l.get? i, l.get? (i + 1), l.get? (i + 2) with
  | some a, some b, some c => some (a, b, c)
  | _, _, _ => none

/- Evaluating the comprehension body over every index in order; the first
failing read fails the whole comprehension, as the raised IndexError
aborts create_mesh. -/
def mapReads {α β : Type} (g : α → Option β) : List α → Option (List β)
  | [] => some []
  | x :: xs =>
    match g x, mapReads g xs with
    | some y, some ys => some (y :: ys)
    | _, _ => none

/- Python range(0, stop, 3): the indices 0, 3, 6, ..., one per started
block of 3, hence (stop + 2) / 3 of them in natural division. -/
def pyRangeStep3 (stop : ℕ) : List ℕ :=
  (List.range ((stop + 2) / 3)).map (fun k => 3 * k)

/- IfcClasher.create_mesh: group the flat vertex buffer and the flat face
buffer into 3-tuples by reading indices i, i+1, i+2 for every i in
range(0, len, 3); none models the IndexError raised on a buffer whose
length is not a multiple of 3. -/
def create_mesh (v : List ℚ) (f : List ℕ) : Option Mesh :=
  match mapReads (readTriple v) (pyRangeStep3 v.length),
      mapReads (readTriple f) (pyRangeStep3 f.length) with
  | some verts, some fcs => some { vertices := verts, faces := fcs }
  | _, _ => none

/- Reading entries 3k, 3k+1, 3k+2 of a flat buffer, used to state what
vertex k and face k of a built Mesh hold. -/
def tripleAt {α : Type} (l : List α) (k : ℕ) : Option (α × α × α) :=
  match l.get? (3 * k), l.get? (3 * k + 1), l.get? (3 * k + 2) with
  | some a, some b, some c => some (a, b, c)
  | _, _, _ => none

/- A 4x4 matrix of rationals, row index first (a numpy 2d array). -/
abbrev Mat4 := Fin 4 → Fin 4 → ℚ

/- numpy ndarray.transpose(): returns the transposed array, the receiver is
unchanged. -/
def np_transpose (M : Mat4) : Mat4 := fun i j => M j i

/- The matrix built in IfcClasher.add_collision_object from the 12-entry
transform data m of a shape: np.array of the four listed rows, followed by
the statement mat.transpose() whose result is discarded (ndarray.transpose
does not mutate), so the value passed to add_object is the array as built. -/
def collision_object_matrix (m : Fin 12 → ℚ) : Mat4 :=
  let mat : Mat4 :=
    ![![m 0, m 3, m 6, m 9],
      ![m 1, m 4, m 7, m 10],
      ![m 2, m 5, m 8, m 11],
      ![0, 0, 0, 1]]
  let _transposed := np_transpose mat
  mat

/- Following the specification text: the 12-entry data holds the linear part
in the first 9 entries in row-major order and the translation in the last 3;
the target is the column-major reading of that data as a standard 4x4
homogeneous matrix, with bottom row [0, 0, 0, 1]. -/
def spec_column_major (m : Fin 12 → ℚ) : Mat4 := fun i j =>
  if hi : (i : ℕ) < 3 then
    if hj : (j : ℕ) < 3 then m ⟨3 * (j : ℕ) + (i : ℕ), by omega⟩
    else m ⟨9 + (i : ℕ), by omega⟩
  else if (j : ℕ) < 3 then 0 else 1

/- The fields of an IFC entity instance the report reads: the semantic class
returned by is_a() and the optional Name attribute. -/
structure ElementInfo where
  is_a : String
  name : Option String
deriving DecidableEq

/- The raw narrow-phase data of one contact returned by the collision
engine. -/
structure ContactRaw where
  normal : List ℚ
  pos : List ℚ
  penetration_depth : ℚ
deriving DecidableEq

/- One contact returned by in_collision_other(..., return_data=True): the
pair of object labels and the raw contact data. -/
structure Contact where
  names : String × String
  raw : ContactRaw
deriving DecidableEq

/- self.tolerance = 0.01 set in IfcClasher.__init__. -/
def tolerance : ℚ := 0.01

/- The dict key used by IfcClasher.clash for a contact:
the f-string interpolation of a_global_id, a dash, b_global_id. -/
def contactKey (c : Contact) : String :=
  c.names.1 ++ "-" ++ c.names.2

/- The dict entry written into self.clashes for one passing contact. -/
structure ClashRecordT where
  a_global_id : String
  b_global_id : String
  a_ifc_class : String
  b_ifc_class : String
  a_name : Option String
  b_name : Option String
  normal : List ℚ
  position : List ℚ
  penetration_depth : ℚ
deriving DecidableEq

/- The record value stored by IfcClasher.clash for a contact whose
endpoints resolved to the entities a and b. -/
def contactRecord (a b : ElementInfo) (c : Contact) : ClashRecordT :=
  { a_global_id := c.names.1
    b_global_id := c.names.2
    a_ifc_class := a.is_a
    b_ifc_class := b.is_a
    a_name := a.name
    b_name := b.name
    normal := c.raw.normal
    position := c.raw.pos
    penetration_depth := c.raw.penetration_depth }

/- The self.clashes dict: ordered association list keyed by the contact
key. -/
abbrev ClashDict := List (String × ClashRecordT)

/- The body of the contact loop of IfcClasher.clash for one contact:
a and b are resolved by guid first (a missing instance raises, modelled by
Except.error); a contact whose penetration depth is below the tolerance is
skipped; otherwise the record is written under the contact key. -/
def processContact (A B : String → Option ElementInfo) (clashes : ClashDict)
    (c : Contact) : Except String ClashDict :=
  match A c.names.1 with
  | none => Except.error "RuntimeError: entity instance not found"
  | some a =>
    match B c.names.2 with
    | none => Except.error "RuntimeError: entity instance not found"
    | some b =>
      if c.raw.penetration_depth < tolerance then Except.ok clashes
      else Except.ok (setValue (contactKey c) (contactRecord a b c) clashes)

/- The contact loop of IfcClasher.clash over the returned contact list. -/
def processContacts (A B : String → Option ElementInfo) (clashes : ClashDict) :
    List Contact → Except String ClashDict
  | [] => Except.ok clashes
  | c :: rest =>
    match processContact A B clashes c with
    | Except.error e => Except.error e
    | Except.ok clashes₂ => processContacts A B clashes₂ rest

/- The tail of IfcClasher.clash after the interference query: when
results[0] is false the method returns with self.clashes still the empty
dict of __init__; otherwise every contact of results[1] is processed. -/
def clashDetect (A B : String → Option ElementInfo)
    (results : Bool × List Contact) : Except String ClashDict :=
  if results.1 = false then Except.ok []
  else processContacts A B [] results.2

/- IfcClasher.export: json.dump(list(self.clashes.values()), file) always
writes one document holding exactly the value list of the dict; the array
serialized for the report is that list. -/
def export_report (clashes : ClashDict) : List ClashRecordT :=
  dictValues clashes

/- One tessellated shape pulled from the geometry iterator: the element
guid, the geometry (its id shared between instances of identical geometry,
the flat vertex buffer, the flat face buffer) and the 12-entry placement
transform data. -/
structure IfcShape where
  guid : String
  geometryId : String
  verts : List ℚ
  faces : List ℕ
  matrixData : Fin 12 → ℚ

/- One collision scene (a collision.CollisionManager): the list of objects
added, each a label with its mesh and its 4x4 transform. -/
abbrev Scene := List (String × Mesh × Mat4)

/- The per-side state threaded through add_collision_object: the mesh cache
self.{ab}_meshes, the collision manager self.{ab}_cm, and a ghost log
recording the geometry id of every create_mesh invocation (one entry
appended exactly when create_mesh runs). -/
structure BuildState where
  meshes : List (String × Mesh)
  scene : Scene
  built : List String

/- IfcClasher.add_collision_object: a None shape is skipped; the element is
resolved by id (a missing instance raises, modelled by Except.error); the
mesh is fetched from the cache under the key mesh-{geometry id} or built by
create_mesh and cached; the matrix is built from the transform data and the
object is added to the collision manager. -/
def add_collision_object (byId : String → Option ElementInfo) (st : BuildState)
    (shape : Option IfcShape) : Except String BuildState :=
  match shape with
  | none => Except.ok st
  | some s =>
    match byId s.guid with
    | none => Except.error "RuntimeError: entity instance not found"
    | some _ =>
      let mesh_name := "mesh-" ++ s.geometryId
      match getValue mesh_name st.meshes with
      | some mesh =>
        Except.ok { st with
          scene := st.scene ++ [(s.guid, mesh, collision_object_matrix s.matrixData)] }
      | none =>
        match create_mesh s.verts s.faces with
        | none => Except.error "IndexError: list index out of range"
        | some mesh =>
          Except.ok
            { meshes := setValue mesh_name mesh st.meshes
              scene := st.scene ++ [(s.guid, mesh, collision_object_matrix s.matrixData)]
              built := st.built ++ [s.geometryId] }

/- The shape loop of IfcClasher.add_collision_objects, consuming the
iterator output in order from a given state. -/
def buildObjectsFrom (byId : String → Option ElementInfo) (st : BuildState) :
    List (Option IfcShape) → Except String BuildState
  | [] => Except.ok st
  | sh :: rest =>
    match add_collision_object byId st sh with
    | Except.error e => Except.error e
    | Except.ok st₂ => buildObjectsFrom byId st₂ rest

/- IfcClasher.add_collision_objects: when iterator.initialize() reports an
invalid file the method returns at once, leaving the fresh empty mesh cache
and the fresh empty collision manager of that side untouched; otherwise the
whole shape stream is consumed. -/
def add_collision_objects (byId : String → Option ElementInfo) (initOk : Bool)
    (shapes : List (Option IfcShape)) : Except String BuildState :=
  if initOk then buildObjectsFrom byId { meshes := [], scene := [], built := [] } shapes
  else Except.ok { meshes := [], scene := [], built := [] }

/- The post-loading part of IfcClasher.clash: build the two collision
scenes, issue the one interference query of scene a against scene b, then
filter and record the contacts. -/
def clash_run (byIdA byIdB A B : String → Option ElementInfo)
    (aInit bInit : Bool) (aShapes bShapes : List (Option IfcShape))
    (query : Scene → Scene → Bool × List Contact) : Except String ClashDict :=
  match add_collision_objects byIdA aInit aShapes with
  | Except.error e => Except.error e
  | Except.ok stA =>
    match add_collision_objects byIdB bInit bShapes with
    | Except.error e => Except.error e
    | Except.ok stB => clashDetect A B (query stA.scene stB.scene)

/- An IfcAxis2Placement as patch_placement_to_origin touches it: the
Location coordinates, and the optional Axis and RefDirection direction
entities (Python truthiness of an entity attribute is presence, modelled by
Option), each carrying its direction ratios. -/
structure Placement where
  location : ℚ × ℚ × ℚ
  axis : Option (ℚ × ℚ × ℚ)
  refDirection : Option (ℚ × ℚ × ℚ)
deriving DecidableEq

/- IfcClasher.patch_placement_to_origin: the location is set to the origin;
when the Axis attribute is present its ratios are set to (0, 0, 1); when the
RefDirection attribute is present its ratios are set to (1, 0, 0). -/
def patch_placement_to_origin (p : Placement) : Placement :=
  { location := (0, 0, 0)
    axis := p.axis.map (fun _ => ((0 : ℚ), (0 : ℚ), (1 : ℚ)))
    refDirection := p.refDirection.map (fun _ => ((1 : ℚ), (0 : ℚ), (0 : ℚ))) }

/- One element of the decomposition hierarchy: its IFC class tag, its
placement, and its IsDecomposedBy inverse attribute, a list of
IfcRelAggregates relationships each carrying its RelatedObjects list. The
tree rendering makes the decomposition relation finite and acyclic, the
hypothesis of the traversal claims. -/
inductive Ifc : Type where
  | mk : String → Placement → List (List Ifc) → Ifc

/- The class tag of an element. -/
def Ifc.tag : Ifc → String
  | Ifc.mk t _ _ => t

/- The placement of an element. -/
def Ifc.placement : Ifc → Placement
  | Ifc.mk _ p _ => p

/- The IsDecomposedBy relationships of an element. -/
def Ifc.isDecomposedBy : Ifc → List (List Ifc)
  | Ifc.mk _ _ d => d

/- element.is_a(ifc_class) rendered as a class-tag test. -/
def Ifc.is_a (e : Ifc) (cls : String) : Bool :=
  e.tag == cls

mutual

/- IfcClasher.find_decomposed_ifc_class: start from the empty result list,
return it at once when IsDecomposedBy is empty, and otherwise, for every
relationship and every related part, append the part when it is of the
searched class and extend with the recursive search below the part. -/
def find_decomposed_ifc_class : Ifc → String → List Ifc
  | Ifc.mk _ _ decomp, cls =>
    if decomp.isEmpty then [] else findInAggregates decomp cls

/- The outer loop of find_decomposed_ifc_class over the relationships. -/
def findInAggregates : List (List Ifc) → String → List Ifc
  | [], _ => []
  | ra :: rest, cls => findInParts ra cls ++ findInAggregates rest cls

/- The inner loop of find_decomposed_ifc_class over the related parts. -/
def findInParts : List Ifc → String → List Ifc
  | [], _ => []
  | part :: rest, cls =>
    ((if part.is_a cls then [part] else []) ++ find_decomposed_ifc_class part cls)
      ++ findInParts rest cls

end

/- x is a proper descendant of e through the decomposition relation: x is a
related object of some relationship of e, or a proper descendant of such a
related object. -/
inductive DescOf : Ifc → Ifc → Prop where
  | head : ∀ (part e : Ifc) (ra : List Ifc),
      ra ∈ e.isDecomposedBy → part ∈ ra → DescOf part e
  | tail : ∀ (x part e : Ifc) (ra : List Ifc),
      ra ∈ e.isDecomposedBy → part ∈ ra → DescOf x part → DescOf x e

mutual

/- The per-element effect of IfcClasher.patch_ifc on a subtree root: the
placement is normalized when the element is of class IfcSite or IfcBuilding
(exactly the elements find_decomposed_ifc_class collects), recursively
through the whole subtree. -/
def patchElements : Ifc → Ifc
  | Ifc.mk t p d =>
    Ifc.mk t
      (if t = "IfcSite" ∨ t = "IfcBuilding" then patch_placement_to_origin p else p)
      (patchAggregates d)

/- patchElements mapped through the relationship lists. -/
def patchAggregates : List (List Ifc) → List (List Ifc)
  | [] => []
  | ra :: rest => patchParts ra :: patchAggregates rest

/- patchElements mapped through one RelatedObjects list. -/
def patchParts : List Ifc → List Ifc
  | [] => []
  | e :: rest => patchElements e :: patchParts rest

end

/- IfcClasher.patch_ifc on the project element: every IfcSite and every
IfcBuilding found by find_decomposed_ifc_class below the project, that is
every proper descendant bearing one of those class tags, has its placement
patched to the origin; the project element itself is not in the search
results and keeps its own placement. -/
def patch_ifc (project : Ifc) : Ifc :=
  match project with
  | Ifc.mk t p d => Ifc.mk t p (patchAggregates d)

/- The cache invariant threaded through the shape loop: a geometry id has a
cached mesh exactly when it already appears in the build log, and the build
log holds no id twice. -/
def cacheInv (st : BuildState) : Prop :=
  (∀ g : String, (getValue ("mesh-" ++ g) st.meshes).isSome = true ↔ g ∈ st.built) ∧
  st.built.Nodup

/- Concrete inputs used to instantiate the theorems below. -/
def witElem : ElementInfo := { is_a := "IfcWall", name := some "Wall" }

/- A resolver mapping every id to the one concrete entity. -/
def witById : String → Option ElementInfo := fun _ => some witElem

/- A concrete shape with one vertex triple and one face triple. -/
def witShape : IfcShape :=
  { guid := "e1", geometryId := "g1", verts := [1, 2, 3], faces := [0, 1, 2],
    matrixData := fun _ => 0 }

/- A second shape sharing the geometry id of witShape. -/
def witShape2 : IfcShape :=
  { guid := "e2", geometryId := "g1", verts := [1, 2, 3], faces := [0, 1, 2],
    matrixData := fun _ => 0 }

/- The mesh create_mesh builds from the witShape buffers. -/
def witMesh : Mesh := { vertices := [(1, 2, 3)], faces := [(0, 1, 2)] }

/- The build state after consuming the single shape witShape. -/
def witState : BuildState :=
  { meshes := [("mesh-g1", witMesh)],
    scene := [("e1", witMesh, collision_object_matrix witShape.matrixData)],
    built := ["g1"] }

/- The build state after consuming witShape then witShape2: one cached mesh,
two scene objects, one build-log entry. -/
def witStateTwo : BuildState :=
  { meshes := [("mesh-g1", witMesh)],
    scene := [("e1", witMesh, collision_object_matrix witShape.matrixData),
              ("e2", witMesh, collision_object_matrix witShape2.matrixData)],
    built := ["g1"] }

/- Raw contact data at a chosen penetration depth. -/
def witRaw (d : ℚ) : ContactRaw :=
  { normal := [0, 0, 1], pos := [0, 0, 0], penetration_depth := d }

/- A contact just below the tolerance, the boundary test of the spec. -/
def witContactLow : Contact := { names := ("A1", "B1"), raw := witRaw 0.0099 }

/- A contact exactly at the tolerance. -/
def witContactEq : Contact := { names := ("A1", "B1"), raw := witRaw 0.01 }

/- A passing contact for the same ordered pair as witContactEq. -/
def witContactDup : Contact := { names := ("A1", "B1"), raw := witRaw 0.02 }

/- A passing contact for the ordered pair of labels x- and y. -/
def witContactP1 : Contact := { names := ("x-", "y"), raw := witRaw 0.02 }

/- A passing contact for the distinct ordered pair x and -y, whose dict key
collides with the key of witContactP1. -/
def witContactP2 : Contact := { names := ("x", "-y"), raw := witRaw 0.03 }

/- The matrix built by add_collision_object is exactly the column-major
reading the specification describes, entry by entry. -/
theorem collision_object_matrix_eq_spec (m : Fin 12 → ℚ) :
    collision_object_matrix m = spec_column_major m := by
  funext i j
  fin_cases i <;> fin_cases j <;> rfl

/- Lookup after an overwrite of the same key. -/
theorem getValue_setValue_self {α : Type} (k : String) (v : α) :
    ∀ d : List (String × α), getValue k (setValue k v d) = some v := by
  intro d
  induction d with
  | nil => simp [setValue, getValue]
  | cons kv rest ih =>
    by_cases h : kv.1 = k
    · simp [setValue, getValue, h]
    · simp [setValue, getValue, h, ih]

/- Lookup of a different key is unchanged by an overwrite. -/
theorem getValue_setValue_ne {α : Type} (k k₂ : String) (v : α) (h : k ≠ k₂) :
    ∀ d : List (String × α), getValue k₂ (setValue k v d) = getValue k₂ d := by
  intro d
  induction d with
  | nil => simp [setValue, getValue, h]
  | cons kv rest ih =>
    by_cases h₂ : kv.1 = k
    · simp [setValue, getValue, h₂, h]
    · simp [setValue, getValue, h₂, ih]

/- Unfolding equations for the dict helpers. -/
theorem dictValues_nil {α : Type} : dictValues ([] : List (String × α)) = [] := rfl

/- Values of a non-empty dict. -/
theorem dictValues_cons {α : Type} (kv : String × α) (rest : List (String × α)) :
    dictValues (kv :: rest) = kv.2 :: dictValues rest := rfl

/- Keys of the empty dict. -/
theorem dictKeys_nil {α : Type} : dictKeys ([] : List (String × α)) = [] := rfl

/- Keys of a non-empty dict. -/
theorem dictKeys_cons {α : Type} (kv : String × α) (rest : List (String × α)) :
    dictKeys (kv :: rest) = kv.1 :: dictKeys rest := rfl

/- Assignment on a non-empty dict. -/
theorem setValue_cons {α : Type} (k : String) (v : α) (k₂ : String) (v₂ : α)
    (rest : List (String × α)) :
    setValue k v ((k₂, v₂) :: rest) =
      if k₂ = k then (k, v) :: rest else (k₂, v₂) :: setValue k v rest := rfl

/- Every value of an overwritten dict is the written value or an old
value. -/
theorem mem_dictValues_setValue {α : Type} (k : String) (v x : α) :
    ∀ d : List (String × α), x ∈ dictValues (setValue k v d) → x = v ∨ x ∈ dictValues d := by
  intro d
  induction d with
  | nil =>
    intro h
    simp only [setValue, dictValues_cons, dictValues_nil, List.mem_cons,
      List.not_mem_nil, or_false] at h
    exact Or.inl h
  | cons kv rest ih =>
    obtain ⟨k₂, v₂⟩ := kv
    intro h
    by_cases hk : k₂ = k
    · rw [setValue_cons, if_pos hk] at h
      rw [dictValues_cons] at h ⊢
      rcases List.mem_cons.mp h with h₂ | h₂
      · exact Or.inl h₂
      · exact Or.inr (List.mem_cons.mpr (Or.inr h₂))
    · rw [setValue_cons, if_neg hk] at h
      rw [dictValues_cons] at h ⊢
      rcases List.mem_cons.mp h with h₂ | h₂
      · exact Or.inr (List.mem_cons.mpr (Or.inl h₂))
      · rcases ih h₂ with h₃ | h₃
        · exact Or.inl h₃
        · exact Or.inr (List.mem_cons.mpr (Or.inr h₃))

/- The keys of an overwritten dict are the written key and the old keys. -/
theorem mem_dictKeys_setValue {α : Type} (k x : String) (v : α) :
    ∀ d : List (String × α), x ∈ dictKeys (setValue k v d) ↔ x = k ∨ x ∈ dictKeys d := by
  intro d
  induction d with
  | nil =>
    simp [setValue, dictKeys_cons, dictKeys_nil]
  | cons kv rest ih =>
    obtain ⟨k₂, v₂⟩ := kv
    by_cases hk : k₂ = k
    · rw [setValue_cons, if_pos hk, dictKeys_cons, dictKeys_cons]
      subst hk
      simp [List.mem_cons]
    · rw [setValue_cons, if_neg hk, dictKeys_cons, dictKeys_cons]
      simp only [List.mem_cons, ih]
      tauto

/- Dict assignment keeps the keys duplicate-free. -/
theorem dictKeys_setValue_nodup {α : Type} (k : String) (v : α) :
    ∀ d : List (String × α), (dictKeys d).Nodup → (dictKeys (setValue k v d)).Nodup := by
  intro d
  induction d with
  | nil =>
    intro _
    simp [setValue, dictKeys_cons, dictKeys_nil]
  | cons kv rest ih =>
    obtain ⟨k₂, v₂⟩ := kv
    intro hnd
    rw [dictKeys_cons, List.nodup_cons] at hnd
    by_cases hk : k₂ = k
    · rw [setValue_cons, if_pos hk, dictKeys_cons, List.nodup_cons]
      exact ⟨hk ▸ hnd.1, hnd.2⟩
    · rw [setValue_cons, if_neg hk, dictKeys_cons, List.nodup_cons]
      refine ⟨fun hmem => ?_, ih hnd.2⟩
      rcases (mem_dictKeys_setValue k k₂ v rest).mp hmem with h₂ | h₂
      · exact hk h₂
      · exact hnd.1 h₂

/- A triple read succeeds exactly when its last index is in range. -/
theorem readTriple_isSome {α : Type} (l : List α) (i : ℕ) :
    (readTriple l i).isSome = true ↔ i + 2 < l.length := by
  cases h₃ : l.get? (i + 2) with
  | some c =>
    obtain ⟨hlt, -⟩ := List.get?_eq_some.mp h₃
    have h₁ : ∃ a, l.get? i = some a := by
      cases hh : l.get? i with
      | none => exact absurd (List.get?_eq_none.mp hh) (by omega)
      | some a => exact ⟨a, rfl⟩
    have h₂ : ∃ b, l.get? (i + 1) = some b := by
      cases hh : l.get? (i + 1) with
      | none => exact absurd (List.get?_eq_none.mp hh) (by omega)
      | some b => exact ⟨b, rfl⟩
    obtain ⟨a, h₁⟩ := h₁
    obtain ⟨b, h₂⟩ := h₂
    unfold readTriple
    rw [h₁, h₂, h₃]
    simp [hlt]
  | none =>
    have hge := List.get?_eq_none.mp h₃
    unfold readTriple
    rw [h₃]
    cases h₁ : l.get? i <;> cases h₂ : l.get? (i + 1) <;> simp <;> omega

/- A triple read at an index at or past the end fails. -/
theorem readTriple_none_of_ge {α : Type} (l : List α) (i : ℕ) (h : l.length ≤ i) :
    readTriple l i = none := by
  unfold readTriple
  have h₁ : l.get? i = none := List.get?_eq_none.mpr h
  rw [h₁]

/- The comprehension succeeds exactly when every read succeeds. -/
theorem mapReads_isSome {α β : Type} (g : α → Option β) :
    ∀ xs : List α, (mapReads g xs).isSome = true ↔ ∀ x ∈ xs, (g x).isSome = true := by
  intro xs
  induction xs with
  | nil => simp [mapReads]
  | cons x rest ih =>
    unfold mapReads
    cases hg : g x <;> cases hr : mapReads g rest <;>
      simp_all [Option.isSome_some, Option.isSome_none]

/- Entry k of a successful comprehension is the read of entry k of the
index list. -/
theorem mapReads_get? {α β : Type} (g : α → Option β) :
    ∀ (xs : List α) (ys : List β), mapReads g xs = some ys →
      ∀ k, ys.get? k = (xs.get? k).bind g := by
  intro xs
  induction xs with
  | nil =>
    intro ys h k
    simp only [mapReads] at h
    cases h
    simp
  | cons x rest ih =>
    intro ys h k
    unfold mapReads at h
    cases hg : g x <;> rw [hg] at h
    · cases h
    · cases hr : mapReads g rest <;> rw [hr] at h
      · cases h
      · cases h
        cases k with
        | zero => simp [hg]
        | succ k => simpa using ih _ hr k

/- Entry k of range(0, stop, 3). -/
theorem pyRangeStep3_get? (stop k : ℕ) :
    (pyRangeStep3 stop).get? k =
      if k < (stop + 2) / 3 then some (3 * k) else none := by
  unfold pyRangeStep3
  rw [List.get?_map]
  by_cases hk : k < (stop + 2) / 3
  · rw [List.get?_range hk, if_pos hk]
    rfl
  · rw [if_neg hk]
    have : (List.range ((stop + 2) / 3)).get? k = none := by
      rw [List.get?_eq_none, List.length_range]
      omega
    rw [this]
    rfl

/- Membership in range(0, stop, 3). -/
theorem mem_pyRangeStep3 (stop i : ℕ) :
    i ∈ pyRangeStep3 stop ↔ ∃ k, k < (stop + 2) / 3 ∧ i = 3 * k := by
  unfold pyRangeStep3
  simp [List.mem_map, List.mem_range, eq_comm]

/- Grouping a flat buffer succeeds exactly when its length is a multiple
of 3: with a ragged tail the last comprehension step reads past the end. -/
theorem buffer_chunk_isSome {α : Type} (l : List α) :
    (mapReads (readTriple l) (pyRangeStep3 l.length)).isSome = true ↔ 3 ∣ l.length := by
  rw [mapReads_isSome]
  constructor
  · intro h
    by_contra hnd
    have hpos : 0 < l.length := by omega
    have hk : 3 * ((l.length + 2) / 3 - 1) ∈ pyRangeStep3 l.length := by
      rw [mem_pyRangeStep3]
      exact ⟨(l.length + 2) / 3 - 1, by omega, rfl⟩
    have := (readTriple_isSome l _).mp (h _ hk)
    omega
  · intro hd i hi
    rw [mem_pyRangeStep3] at hi
    obtain ⟨k, hk, rfl⟩ := hi
    rw [readTriple_isSome]
    omega

/- The triple at position k of the claim is the read at index 3k. -/
theorem tripleAt_eq_readTriple {α : Type} (l : List α) (k : ℕ) :
    tripleAt l k = readTriple l (3 * k) := rfl

/- Entry k of a successfully grouped buffer is the triple at 3k. -/
theorem buffer_chunk_get {α : Type} (l : List α) (ys : List (α × α × α))
    (h : mapReads (readTriple l) (pyRangeStep3 l.length) = some ys) (k : ℕ) :
    ys.get? k = tripleAt l k := by
  rw [mapReads_get? _ _ _ h k, pyRangeStep3_get?, tripleAt_eq_readTriple]
  by_cases hk : k < (l.length + 2) / 3
  · rw [if_pos hk]
    rfl
  · rw [if_neg hk]
    rw [readTriple_none_of_ge l (3 * k) (by omega)]
    rfl

/- The early return on an empty IsDecomposedBy coincides with running the
empty loop, so the search is the loop over the relationships. -/
theorem find_mk (t : String) (p : Placement) (d : List (List Ifc)) (cls : String) :
    find_decomposed_ifc_class (Ifc.mk t p d) cls = findInAggregates d cls := by
  cases d with
  | nil => simp [find_decomposed_ifc_class, findInAggregates]
  | cons ra rest => simp [find_decomposed_ifc_class]

/- Membership in the inner loop output: some listed part matched, or the
result comes from the recursive search below a listed part. -/
theorem mem_findInParts (cls : String) (x : Ifc) :
    ∀ l : List Ifc, x ∈ findInParts l cls ↔
      ∃ part, part ∈ l ∧
        ((x = part ∧ part.is_a cls = true) ∨ x ∈ find_decomposed_ifc_class part cls) := by
  intro l
  induction l with
  | nil => simp [findInParts]
  | cons p rest ih =>
    simp only [findInParts]
    constructor
    · intro hx
      rcases List.mem_append.mp hx with h | h
      · rcases List.mem_append.mp h with h₂ | h₂
        · by_cases hp : p.is_a cls = true
          · rw [if_pos hp, List.mem_singleton] at h₂
            exact ⟨p, List.mem_cons_self p rest, Or.inl ⟨h₂, hp⟩⟩
          · rw [if_neg hp] at h₂
            exact absurd h₂ (List.not_mem_nil x)
        · exact ⟨p, List.mem_cons_self p rest, Or.inr h₂⟩
      · obtain ⟨part, hmem, hc⟩ := ih.mp h
        exact ⟨part, List.mem_cons_of_mem p hmem, hc⟩
    · rintro ⟨part, hmem, hc⟩
      rcases List.mem_cons.mp hmem with rfl | hmem₂
      · apply List.mem_append.mpr
        left
        apply List.mem_append.mpr
        rcases hc with ⟨rfl, hpa⟩ | hfind
        · left
          rw [if_pos hpa]
          exact List.mem_singleton.mpr rfl
        · exact Or.inr hfind
      · exact List.mem_append.mpr (Or.inr (ih.mpr ⟨part, hmem₂, hc⟩))

/- Membership in the outer loop output: the result comes from the inner
loop of some listed relationship. -/
theorem mem_findInAggregates (cls : String) (x : Ifc) :
    ∀ ds : List (List Ifc), x ∈ findInAggregates ds cls ↔
      ∃ ra, ra ∈ ds ∧ x ∈ findInParts ra cls := by
  intro ds
  induction ds with
  | nil => simp [findInAggregates]
  | cons ra rest ih =>
    simp only [findInAggregates]
    constructor
    · intro hx
      rcases List.mem_append.mp hx with h | h
      · exact ⟨ra, List.mem_cons_self ra rest, h⟩
      · obtain ⟨ra₂, hmem, hx₂⟩ := ih.mp h
        exact ⟨ra₂, List.mem_cons_of_mem ra hmem, hx₂⟩
    · rintro ⟨ra₂, hmem, hx₂⟩
      rcases List.mem_cons.mp hmem with rfl | hmem₂
      · exact List.mem_append.mpr (Or.inl hx₂)
      · exact List.mem_append.mpr (Or.inr (ih.mpr ⟨ra₂, hmem₂, hx₂⟩))

/- Soundness of the recursive search: every result is a matching proper
descendant. -/
theorem find_desc_sound :
    ∀ (n : ℕ) (e : Ifc), sizeOf e ≤ n → ∀ (cls : String) (x : Ifc),
      x ∈ find_decomposed_ifc_class e cls → DescOf x e ∧ x.is_a cls = true := by
  intro n
  induction n with
  | zero =>
    intro e he
    cases e with
    | mk t p d => simp at he
  | succ n ih =>
    intro e he cls x hx
    cases e with
    | mk t p d =>
      rw [find_mk, mem_findInAggregates] at hx
      obtain ⟨ra, hra, hxp⟩ := hx
      rw [mem_findInParts] at hxp
      obtain ⟨part, hpart, hcase⟩ := hxp
      have hsz : sizeOf part ≤ n := by
        have h₁ := List.sizeOf_lt_of_mem hpart
        have h₂ := List.sizeOf_lt_of_mem hra
        simp at he
        omega
      rcases hcase with ⟨rfl, hisa⟩ | hrec
      · exact ⟨DescOf.head x (Ifc.mk t p d) ra hra hpart, hisa⟩
      · obtain ⟨hdesc, hisa⟩ := ih part hsz cls x hrec
        exact ⟨DescOf.tail x part (Ifc.mk t p d) ra hra hpart hdesc, hisa⟩

/- Completeness of the recursive search: every matching proper descendant
is collected. -/
theorem desc_find_complete :
    ∀ (x e : Ifc), DescOf x e → ∀ cls : String, x.is_a cls = true →
      x ∈ find_decomposed_ifc_class e cls := by
  intro x e hdesc
  induction hdesc with
  | head e₂ ra hra hp =>
    intro cls hcls
    cases e₂ with
    | mk t p d =>
      rw [find_mk, mem_findInAggregates]
      exact ⟨ra, hra, (mem_findInParts cls x ra).mpr ⟨x, hp, Or.inl ⟨rfl, hcls⟩⟩⟩
  | tail part e₂ ra hra hp hd ihd =>
    intro cls hcls
    cases e₂ with
    | mk t p d =>
      rw [find_mk, mem_findInAggregates]
      exact ⟨ra, hra, (mem_findInParts cls x ra).mpr ⟨part, hp, Or.inr (ihd cls hcls)⟩⟩

/- Normalizing a placement twice gives the placement normalized once. -/
theorem patch_placement_to_origin_idem (p : Placement) :
    patch_placement_to_origin (patch_placement_to_origin p) = patch_placement_to_origin p := by
  cases hax : p.axis <;> cases href : p.refDirection <;>
    simp [patch_placement_to_origin, hax, href]

/- Idempotence of the subtree normalization, by joint strong induction on
the element, the relationship lists and the part lists. -/
theorem patch_idem_aux :
    ∀ n : ℕ,
      (∀ e : Ifc, sizeOf e ≤ n → patchElements (patchElements e) = patchElements e) ∧
      (∀ d : List (List Ifc), sizeOf d ≤ n →
        patchAggregates (patchAggregates d) = patchAggregates d) ∧
      (∀ ra : List Ifc, sizeOf ra ≤ n → patchParts (patchParts ra) = patchParts ra) := by
  intro n
  induction n using Nat.strong_induction_on with
  | _ n ih =>
    refine ⟨?_, ?_, ?_⟩
    · intro e he
      cases e with
      | mk t p d =>
        simp only [patchElements]
        have hd : sizeOf d < n := by simp at he; omega
        rw [(ih (sizeOf d) hd).2.1 d le_rfl]
        by_cases ht : t = "IfcSite" ∨ t = "IfcBuilding"
        · rw [if_pos ht, if_pos ht, patch_placement_to_origin_idem]
        · rw [if_neg ht, if_neg ht]
    · intro d hd
      cases d with
      | nil => rfl
      | cons ra rest =>
        simp only [patchAggregates]
        have h₁ : sizeOf ra < n := by simp at hd; omega
        have h₂ : sizeOf rest < n := by simp at hd; omega
        rw [(ih (sizeOf ra) h₁).2.2 ra le_rfl, (ih (sizeOf rest) h₂).2.1 rest le_rfl]
    · intro ra hra
      cases ra with
      | nil => rfl
      | cons e rest =>
        simp only [patchParts]
        have h₁ : sizeOf e < n := by simp at hra; omega
        have h₂ : sizeOf rest < n := by simp at hra; omega
        rw [(ih (sizeOf e) h₁).1 e le_rfl, (ih (sizeOf rest) h₂).2.2 rest le_rfl]

/- Idempotence of the relationship-list normalization. -/
theorem patchAggregates_idem (d : List (List Ifc)) :
    patchAggregates (patchAggregates d) = patchAggregates d :=
  (patch_idem_aux (sizeOf d)).2.1 d le_rfl

/- The contact loop preserves the lower bound on every stored penetration
depth: a skipped contact changes nothing and a stored contact passed the
tolerance test. -/
theorem processContacts_depth_inv (A B : String → Option ElementInfo) :
    ∀ (cs : List Contact) (d d₂ : ClashDict),
      processContacts A B d cs = Except.ok d₂ →
      (∀ r ∈ dictValues d, tolerance ≤ r.penetration_depth) →
      ∀ r ∈ dictValues d₂, tolerance ≤ r.penetration_depth := by
  intro cs
  induction cs with
  | nil =>
    intro d d₂ h hall
    simp only [processContacts] at h
    cases h
    exact hall
  | cons c rest ih =>
    intro d d₂ h hall
    simp only [processContacts] at h
    cases hpc : processContact A B d c with
    | error e => rw [hpc] at h; cases h
    | ok mid =>
      rw [hpc] at h
      refine ih mid d₂ h ?_
      unfold processContact at hpc
      cases hA : A c.names.1 with
      | none => simp only [hA] at hpc; cases hpc
      | some a =>
        simp only [hA] at hpc
        cases hB : B c.names.2 with
        | none => simp only [hB] at hpc; cases hpc
        | some b =>
          simp only [hB] at hpc
          by_cases hlt : c.raw.penetration_depth < tolerance
          · rw [if_pos hlt] at hpc
            cases hpc
            exact hall
          · rw [if_neg hlt] at hpc
            cases hpc
            intro r hr
            rcases mem_dictValues_setValue (contactKey c) (contactRecord a b c) r d hr with
              rfl | hr₂
            · exact le_of_not_lt hlt
            · exact hall r hr₂

/- The contact loop preserves duplicate-freeness of the stored keys. -/
theorem processContacts_nodup_inv (A B : String → Option ElementInfo) :
    ∀ (cs : List Contact) (d d₂ : ClashDict),
      processContacts A B d cs = Except.ok d₂ →
      (dictKeys d).Nodup → (dictKeys d₂).Nodup := by
  intro cs
  induction cs with
  | nil =>
    intro d d₂ h hnd
    simp only [processContacts] at h
    cases h
    exact hnd
  | cons c rest ih =>
    intro d d₂ h hnd
    simp only [processContacts] at h
    cases hpc : processContact A B d c with
    | error e => rw [hpc] at h; cases h
    | ok mid =>
      rw [hpc] at h
      refine ih mid d₂ h ?_
      unfold processContact at hpc
      cases hA : A c.names.1 with
      | none => simp only [hA] at hpc; cases hpc
      | some a =>
        simp only [hA] at hpc
        cases hB : B c.names.2 with
        | none => simp only [hB] at hpc; cases hpc
        | some b =>
          simp only [hB] at hpc
          by_cases hlt : c.raw.penetration_depth < tolerance
          · rw [if_pos hlt] at hpc
            cases hpc
            exact hnd
          · rw [if_neg hlt] at hpc
            cases hpc
            exact dictKeys_setValue_nodup (contactKey c) (contactRecord a b c) d hnd

/- The contact loop over an appended list runs the first part and then the
second from the intermediate dict. -/
theorem processContacts_append (A B : String → Option ElementInfo) :
    ∀ (cs cs₂ : List Contact) (d r : ClashDict),
      processContacts A B d (cs ++ cs₂) = Except.ok r →
      ∃ mid, processContacts A B d cs = Except.ok mid ∧
        processContacts A B mid cs₂ = Except.ok r := by
  intro cs
  induction cs with
  | nil =>
    intro cs₂ d r h
    exact ⟨d, rfl, h⟩
  | cons c rest ih =>
    intro cs₂ d r h
    rw [List.cons_append] at h
    simp only [processContacts] at h ⊢
    cases hpc : processContact A B d c with
    | error e => rw [hpc] at h; cases h
    | ok mid => rw [hpc] at h; exact ih cs₂ mid r h

/- Left cancellation of string append, used for mesh-cache keys. -/
theorem string_append_left_cancel (s t u : String) (h : s ++ t = s ++ u) : t = u := by
  have hd := congrArg String.data h
  rw [String.data_append, String.data_append] at hd
  exact String.ext (List.append_cancel_left hd)

/- Splitting around a dash is unambiguous when neither left part holds a
dash. -/
theorem dash_split_chars :
    ∀ (a a₂ b b₂ : List Char), ('-' ∉ a) → ('-' ∉ a₂) →
      a ++ '-' :: b = a₂ ++ '-' :: b₂ → a = a₂ ∧ b = b₂ := by
  intro a
  induction a with
  | nil =>
    intro a₂ b b₂ ha ha₂ h
    cases a₂ with
    | nil =>
      rw [List.nil_append, List.nil_append] at h
      injection h with h1 h2
      exact ⟨rfl, h2⟩
    | cons y ys =>
      rw [List.nil_append, List.cons_append] at h
      injection h with h1 h2
      subst h1
      exact absurd (List.mem_cons_self _ ys) ha₂
  | cons x xs ih =>
    intro a₂ b b₂ ha ha₂ h
    cases a₂ with
    | nil =>
      rw [List.nil_append, List.cons_append] at h
      injection h with h1 h2
      subst h1
      exact absurd (List.mem_cons_self _ xs) ha
    | cons y ys =>
      rw [List.cons_append, List.cons_append] at h
      injection h with h1 h2
      subst h1
      have hsub := ih ys b b₂ (fun hm => ha (List.mem_cons_of_mem x hm))
        (fun hm => ha₂ (List.mem_cons_of_mem x hm)) h2
      exact ⟨by rw [hsub.1], hsub.2⟩

/- The dict key of the clash loop determines the ordered label pair as long
as no label holds a dash. -/
theorem contact_key_split (aId bId aId₂ bId₂ : String)
    (ha : ('-' ∉ aId.data)) (ha₂ : ('-' ∉ aId₂.data))
    (h : aId ++ "-" ++ bId = aId₂ ++ "-" ++ bId₂) : aId = aId₂ ∧ bId = bId₂ := by
  have hd := congrArg String.data h
  rw [String.data_append, String.data_append, String.data_append, String.data_append] at hd
  have hdash : ("-" : String).data = ['-'] := rfl
  rw [hdash] at hd
  rw [List.append_assoc, List.append_assoc, List.singleton_append] at hd
  obtain ⟨h₁, h₂⟩ := dash_split_chars aId.data aId₂.data bId.data bId₂.data ha ha₂ hd
  exact ⟨String.ext h₁, String.ext h₂⟩

/- One step of the shape loop preserves the cache invariant, never drops a
build-log entry, and leaves the processed geometry id logged. -/
theorem add_collision_object_inv (byId : String → Option ElementInfo)
    (st st₂ : BuildState) (sh : Option IfcShape)
    (h : add_collision_object byId st sh = Except.ok st₂) (hinv : cacheInv st) :
    cacheInv st₂ ∧ (∀ g, g ∈ st.built → g ∈ st₂.built) ∧
      (∀ s : IfcShape, sh = some s → s.geometryId ∈ st₂.built) := by
  cases sh with
  | none =>
    simp only [add_collision_object] at h
    cases h
    exact ⟨hinv, fun g hg => hg, fun s hs => by cases hs⟩
  | some s =>
    simp only [add_collision_object] at h
    cases hb : byId s.guid with
    | none => simp only [hb] at h; cases h
    | some ei =>
      simp only [hb] at h
      cases hg : getValue ("mesh-" ++ s.geometryId) st.meshes with
      | some mesh =>
        simp only [hg] at h
        cases h
        refine ⟨hinv, fun g hgm => hgm, fun s₂ hs₂ => ?_⟩
        injection hs₂ with hss
        subst hss
        exact (hinv.1 s.geometryId).mp (by rw [hg]; rfl)
      | none =>
        simp only [hg] at h
        cases hc : create_mesh s.verts s.faces with
        | none => simp only [hc] at h; cases h
        | some mesh =>
          simp only [hc] at h
          cases h
          have hnot : s.geometryId ∉ st.built := by
            intro hm
            have hsome := (hinv.1 s.geometryId).mpr hm
            rw [hg] at hsome
            cases hsome
          refine ⟨⟨?_, ?_⟩, ?_, ?_⟩
          · intro g₂
            by_cases hgg : g₂ = s.geometryId
            · subst hgg
              simp [getValue_setValue_self, List.mem_append]
            · have hne : ("mesh-" ++ s.geometryId) ≠ ("mesh-" ++ g₂) := fun hEq =>
                hgg (string_append_left_cancel _ _ _ hEq).symm
              rw [getValue_setValue_ne _ _ _ hne]
              have hiff := hinv.1 g₂
              simp [List.mem_append, hgg, hiff]
          · simp [List.nodup_append, hinv.2, hnot]
          · intro g₂ hg₂
            exact List.mem_append.mpr (Or.inl hg₂)
          · intro s₂ hs₂
            injection hs₂ with hss
            subst hss
            exact List.mem_append.mpr (Or.inr (List.mem_singleton.mpr rfl))

/- The whole shape loop preserves the cache invariant, never drops a
build-log entry, and logs every processed geometry id. -/
theorem buildObjectsFrom_inv (byId : String → Option ElementInfo) :
    ∀ (shapes : List (Option IfcShape)) (st st₂ : BuildState),
      buildObjectsFrom byId st shapes = Except.ok st₂ → cacheInv st →
      cacheInv st₂ ∧ (∀ g, g ∈ st.built → g ∈ st₂.built) ∧
        (∀ s : IfcShape, (some s) ∈ shapes → s.geometryId ∈ st₂.built) := by
  intro shapes
  induction shapes with
  | nil =>
    intro st st₂ h hinv
    simp only [buildObjectsFrom] at h
    cases h
    exact ⟨hinv, fun g hg => hg, fun s hs => by cases hs⟩
  | cons sh rest ih =>
    intro st st₂ h hinv
    simp only [buildObjectsFrom] at h
    cases hstep : add_collision_object byId st sh with
    | error e => rw [hstep] at h; cases h
    | ok mid =>
      rw [hstep] at h
      obtain ⟨hinvm, hmono, hlog⟩ := add_collision_object_inv byId st mid sh hstep hinv
      obtain ⟨hinv₂, hmono₂, hlog₂⟩ := ih mid st₂ h hinvm
      refine ⟨hinv₂, fun g hg => hmono₂ g (hmono g hg), fun s hs => ?_⟩
      rcases List.mem_cons.mp hs with hs₁ | hs₂
      · exact hmono₂ s.geometryId (hlog s hs₁.symm)
      · exact hlog₂ s hs₂

/- The empty starting state of each side satisfies the cache invariant. -/
theorem cacheInv_empty : cacheInv { meshes := [], scene := [], built := [] } := by
  constructor
  · intro g
    simp [getValue]
  · exact List.nodup_nil

/-- C1: for every shape consumed by the collision scene builder, the 4x4
transform inserted into that side of the collision scene is the 12-entry
transform data of the shape converted by transpose semantics into the
column-major convention: the linear part is the column-major reading of the
first 9 row-major entries, the translation fills the last column from the
last 3 entries, and the homogeneous bottom row is [0, 0, 0, 1]. -/
theorem add_collision_object_transform :
    (∀ m : Fin 12 → ℚ, collision_object_matrix m = spec_column_major m) ∧
    (∀ (byId : String → Option ElementInfo) (st st₂ : BuildState) (s : IfcShape),
      add_collision_object byId st (some s) = Except.ok st₂ →
      st₂.scene.map (fun ob => ob.2.2) =
        st.scene.map (fun ob => ob.2.2) ++ [spec_column_major s.matrixData]) := by
  constructor
  · exact collision_object_matrix_eq_spec
  · intro byId st st₂ s h
    simp only [add_collision_object] at h
    cases hb : byId s.guid with
    | none => simp only [hb] at h; cases h
    | some ei =>
      simp only [hb] at h
      cases hg : getValue ("mesh-" ++ s.geometryId) st.meshes with
      | some mesh =>
        simp only [hg] at h
        cases h
        simp [List.map_append, collision_object_matrix_eq_spec]
      | none =>
        simp only [hg] at h
        cases hc : create_mesh s.verts s.faces with
        | none => simp only [hc] at h; cases h
        | some mesh =>
          simp only [hc] at h
          cases h
          simp [List.map_append, collision_object_matrix_eq_spec]

/-- Witness for C1 at the concrete shape witShape inserted into an empty
scene. -/
theorem add_collision_object_transform_witness :
    witState.scene.map (fun ob => ob.2.2) =
      ([] : Scene).map (fun ob => ob.2.2) ++ [spec_column_major witShape.matrixData] :=
  add_collision_object_transform.2 witById { meshes := [], scene := [], built := [] }
    witState witShape rfl

/-- C2: a contact whose endpoints resolve is excluded from the report
exactly when its penetration depth is strictly below the tolerance 0.01 and
written into the report when its depth is at least 0.01; consequently every
record of a report produced by the clash loop has penetration depth at
least 0.01. -/
theorem clash_tolerance_boundary :
    ∀ A B : String → Option ElementInfo,
      (∀ (results : Bool × List Contact) (r : ClashDict),
        clashDetect A B results = Except.ok r →
        ∀ rec ∈ dictValues r, tolerance ≤ rec.penetration_depth) ∧
      (∀ (d : ClashDict) (c : Contact) (a b : ElementInfo),
        A c.names.1 = some a → B c.names.2 = some b →
        (c.raw.penetration_depth < tolerance → processContact A B d c = Except.ok d) ∧
        (tolerance ≤ c.raw.penetration_depth →
          processContact A B d c =
            Except.ok (setValue (contactKey c) (contactRecord a b c) d))) := by
  intro A B
  constructor
  · intro results r h rec hrec
    unfold clashDetect at h
    by_cases hres : results.1 = false
    · rw [if_pos hres] at h
      cases h
      simp [dictValues] at hrec
    · rw [if_neg hres] at h
      exact processContacts_depth_inv A B results.2 [] r h (by simp [dictValues]) rec hrec
  · intro d c a b hA hB
    constructor
    · intro hlt
      simp only [processContact, hA, hB]
      rw [if_pos hlt]
    · intro hge
      simp only [processContact, hA, hB]
      rw [if_neg (not_lt.mpr hge)]

/-- Witness for C2: the boundary contacts of the spec, depth 0.0099 is
skipped and depth 0.01 is written. -/
theorem clash_tolerance_boundary_witness :
    processContact witById witById [] witContactLow = Except.ok [] ∧
    processContact witById witById [] witContactEq =
      Except.ok (setValue (contactKey witContactEq)
        (contactRecord witElem witElem witContactEq) []) :=
  ⟨((clash_tolerance_boundary witById witById).2 [] witContactLow witElem witElem rfl
      rfl).1 (by norm_num [witContactLow, witRaw, tolerance]),
   ((clash_tolerance_boundary witById witById).2 [] witContactEq witElem witElem rfl
      rfl).2 (by norm_num [witContactEq, witRaw, tolerance])⟩

/-- C3: a report produced by the clash loop holds at most one record per
key, and after processing a contact list ending in a passing contact the
record stored under the key of that contact is exactly the record of that
last contact, overwriting any earlier record under the same key. -/
theorem clash_report_dedup :
    ∀ A B : String → Option ElementInfo,
      (∀ (results : Bool × List Contact) (r : ClashDict),
        clashDetect A B results = Except.ok r → (dictKeys r).Nodup) ∧
      (∀ (cs : List Contact) (c : Contact) (r : ClashDict) (a b : ElementInfo),
        processContacts A B [] (cs ++ [c]) = Except.ok r →
        A c.names.1 = some a → B c.names.2 = some b →
        tolerance ≤ c.raw.penetration_depth →
        getValue (contactKey c) r = some (contactRecord a b c)) := by
  intro A B
  constructor
  · intro results r h
    unfold clashDetect at h
    by_cases hres : results.1 = false
    · rw [if_pos hres] at h
      cases h
      simp [dictKeys]
    · rw [if_neg hres] at h
      exact processContacts_nodup_inv A B results.2 [] r h (by simp [dictKeys])
  · intro cs c r a b h hA hB hge
    obtain ⟨mid, h₁, h₂⟩ := processContacts_append A B cs [c] [] r h
    simp only [processContacts] at h₂
    cases hpc : processContact A B mid c with
    | error e => rw [hpc] at h₂; cases h₂
    | ok x =>
      rw [hpc] at h₂
      cases h₂
      simp only [processContact, hA, hB] at hpc
      rw [if_neg (not_lt.mpr hge)] at hpc
      cases hpc
      exact getValue_setValue_self (contactKey c) (contactRecord a b c) mid

/-- Witness for C3: two passing contacts for the same ordered pair leave
one record, the one of the last contact. -/
theorem clash_report_dedup_witness :
    getValue (contactKey witContactEq)
        [(contactKey witContactEq, contactRecord witElem witElem witContactEq)] =
      some (contactRecord witElem witElem witContactEq) :=
  (clash_report_dedup witById witById).2 [witContactDup] witContactEq
    [(contactKey witContactEq, contactRecord witElem witElem witContactEq)]
    witElem witElem
    (by
      have hstep1 : processContact witById witById [] witContactDup =
          Except.ok [(contactKey witContactDup, contactRecord witElem witElem witContactDup)] := by
        simp only [processContact, witById]
        rw [if_neg (by norm_num [witContactDup, witRaw, tolerance])]
        rfl
      have hstep2 : processContact witById witById
          [(contactKey witContactDup, contactRecord witElem witElem witContactDup)]
          witContactEq =
          Except.ok [(contactKey witContactEq, contactRecord witElem witElem witContactEq)] := by
        simp only [processContact, witById]
        rw [if_neg (by norm_num [witContactEq, witRaw, tolerance])]
        rw [setValue_cons,
          if_pos (show contactKey witContactDup = contactKey witContactEq from rfl)]
      simp only [List.cons_append, List.nil_append, processContacts, hstep1, hstep2])
    rfl rfl (by norm_num [witContactEq, witRaw, tolerance])

/-- C4: in one side of the build, for a consumed shape stream holding at
least one shape with a given geometry id, create_mesh runs exactly once for
that geometry id no matter how many shapes share it; every later shape with
that geometry id takes the cached mesh instead of building a new one. -/
theorem mesh_cache_builds_once :
    ∀ (byId : String → Option ElementInfo) (shapes : List (Option IfcShape))
      (st : BuildState) (s : IfcShape),
      add_collision_objects byId true shapes = Except.ok st →
      (some s) ∈ shapes →
      List.count s.geometryId st.built = 1 := by
  intro byId shapes st s h hmem
  unfold add_collision_objects at h
  rw [if_pos rfl] at h
  obtain ⟨hinv, -, hlog⟩ := buildObjectsFrom_inv byId shapes _ st h cacheInv_empty
  exact List.count_eq_one_of_mem hinv.2 (hlog s hmem)

/-- Witness for C4: two shapes sharing geometry id g1 leave exactly one
build-log entry for g1. -/
theorem mesh_cache_builds_once_witness :
    List.count witShape.geometryId witStateTwo.built = 1 :=
  mesh_cache_builds_once witById [some witShape, some witShape2] witStateTwo witShape
    rfl (List.mem_cons_self _ _)

/-- C5: when iterator initialization fails for side a, the build of that
side stops at once with the empty scene, and the run still proceeds through
the query and produces a normal, possibly empty, report: with a query
reporting no interference the run returns the empty report instead of
failing. -/
theorem init_failure_empty_scene :
    ∀ (byIdA byIdB A B : String → Option ElementInfo) (bInit : Bool)
      (aShapes bShapes : List (Option IfcShape))
      (query : Scene → Scene → Bool × List Contact),
      add_collision_objects byIdA false aShapes =
        Except.ok { meshes := [], scene := [], built := [] } ∧
      (∀ (stB : BuildState) (cs : List Contact),
        add_collision_objects byIdB bInit bShapes = Except.ok stB →
        query [] stB.scene = (false, cs) →
        clash_run byIdA byIdB A B false bInit aShapes bShapes query = Except.ok []) := by
  intro byIdA byIdB A B bInit aShapes bShapes query
  have hA : add_collision_objects byIdA false aShapes =
      Except.ok { meshes := [], scene := [], built := [] } := by
    unfold add_collision_objects
    rw [if_neg (by simp)]
  refine ⟨hA, ?_⟩
  intro stB cs hB hq
  unfold clash_run
  simp only [hA, hB]
  rw [hq]
  unfold clashDetect
  rw [if_pos rfl]

/-- Witness for C5 with a concrete b side and a query reporting no
interference. -/
theorem init_failure_empty_scene_witness :
    clash_run witById witById witById witById false true [] []
      (fun _ _ => (false, [])) = Except.ok [] :=
  (init_failure_empty_scene witById witById witById witById true [] []
      (fun _ _ => (false, []))).2 { meshes := [], scene := [], built := [] } [] rfl rfl

/-- C6: over the finite acyclic decomposition tree, the recursive search
from an element returns exactly the proper descendants of the searched
class, at every depth, so every matching descendant is visited. -/
theorem find_decomposed_ifc_class_complete :
    ∀ (e : Ifc) (cls : String) (x : Ifc),
      x ∈ find_decomposed_ifc_class e cls ↔ (DescOf x e ∧ x.is_a cls = true) :=
  fun e cls x =>
    ⟨fun h => find_desc_sound (sizeOf e) e le_rfl cls x h,
     fun h => desc_find_complete x e h.1 cls h.2⟩

/-- C7: the placement normalization is idempotent, on a whole model through
patch_ifc and on a single placement through patch_placement_to_origin: the
second application leaves every placement value of the first unchanged. -/
theorem patch_ifc_idempotent :
    (∀ project : Ifc, patch_ifc (patch_ifc project) = patch_ifc project) ∧
    (∀ p : Placement,
      patch_placement_to_origin (patch_placement_to_origin p) =
        patch_placement_to_origin p) := by
  constructor
  · intro project
    cases project with
    | mk t p d =>
      simp only [patch_ifc]
      rw [patchAggregates_idem]
  · exact patch_placement_to_origin_idem

/-- C8: a query reporting no interference leaves the report empty, and
exporting the empty report always yields a document holding the empty
array. -/
theorem empty_query_empty_report :
    ∀ (A B : String → Option ElementInfo) (cs : List Contact),
      clashDetect A B (false, cs) = Except.ok [] ∧
      export_report [] = ([] : List ClashRecordT) := by
  intro A B cs
  constructor
  · unfold clashDetect
    rw [if_pos rfl]
  · rfl

/-- C9: the report key of a contact is the concatenation of the A label, a
dash, and the B label; when no label holds a dash the key determines the
ordered pair, so distinct pairs occupy distinct entries; and for labels
holding a dash, two distinct ordered pairs can share one key, the later
contact overwriting the record of the earlier pair. -/
theorem clash_key_collision :
    (∀ c : Contact, contactKey c = c.names.1 ++ "-" ++ c.names.2) ∧
    (∀ aId bId aId₂ bId₂ : String,
      ('-' ∉ aId.data) → ('-' ∉ bId.data) → ('-' ∉ aId₂.data) → ('-' ∉ bId₂.data) →
      aId ++ "-" ++ bId = aId₂ ++ "-" ++ bId₂ → aId = aId₂ ∧ bId = bId₂) ∧
    (witContactP1.names ≠ witContactP2.names ∧
      contactKey witContactP1 = contactKey witContactP2 ∧
      processContacts witById witById [] [witContactP1, witContactP2] =
        Except.ok [(contactKey witContactP2, contactRecord witElem witElem witContactP2)]) := by
  refine ⟨fun c => rfl, ?_, ?_, rfl, ?_⟩
  · intro aId bId aId₂ bId₂ ha hb ha₂ hb₂ h
    exact contact_key_split aId bId aId₂ bId₂ ha ha₂ h
  · decide
  · have hstep1 : processContact witById witById [] witContactP1 =
        Except.ok [(contactKey witContactP1, contactRecord witElem witElem witContactP1)] := by
      simp only [processContact, witById]
      rw [if_neg (by norm_num [witContactP1, witRaw, tolerance])]
      rfl
    have hstep2 : processContact witById witById
        [(contactKey witContactP1, contactRecord witElem witElem witContactP1)]
        witContactP2 =
        Except.ok [(contactKey witContactP2, contactRecord witElem witElem witContactP2)] := by
      simp only [processContact, witById]
      rw [if_neg (by norm_num [witContactP2, witRaw, tolerance])]
      rw [setValue_cons,
        if_pos (show contactKey witContactP1 = contactKey witContactP2 from rfl)]
    simp only [processContacts, hstep1, hstep2]

/-- Witness for C9 at dash-free labels. -/
theorem clash_key_collision_witness :
    ("a" : String) = "a" ∧ ("b" : String) = "b" :=
  clash_key_collision.2.1 "a" "b" "a" "b" (by decide) (by decide) (by decide) (by decide) rfl

/-- C10: building a mesh succeeds exactly when both flat buffers have length
divisible by 3, since the comprehension reads indices i, i+1, i+2 for every
i in steps of 3 and a ragged tail makes it read past the end of the buffer;
on success vertex k is the triple at entries 3k, 3k+1, 3k+2 of the vertex
buffer and face k the triple at the same entries of the face buffer. -/
theorem create_mesh_chunking :
    ∀ (v : List ℚ) (f : List ℕ),
      ((create_mesh v f).isSome = true ↔ (3 ∣ v.length ∧ 3 ∣ f.length)) ∧
      (∀ me : Mesh, create_mesh v f = some me →
        ∀ k : ℕ, me.vertices.get? k = tripleAt v k ∧ me.faces.get? k = tripleAt f k) := by
  intro v f
  constructor
  · unfold create_mesh
    cases hv : mapReads (readTriple v) (pyRangeStep3 v.length) with
    | none =>
      have hvd : ¬ 3 ∣ v.length := by
        rw [← buffer_chunk_isSome, hv]
        simp
      simp [hvd]
    | some verts =>
      have hvd : 3 ∣ v.length := by
        rw [← buffer_chunk_isSome, hv]
        rfl
      cases hf : mapReads (readTriple f) (pyRangeStep3 f.length) with
      | none =>
        have hfd : ¬ 3 ∣ f.length := by
          rw [← buffer_chunk_isSome (l := f), hf]
          simp
        simp [hfd]
      | some fcs =>
        have hfd : 3 ∣ f.length := by
          rw [← buffer_chunk_isSome (l := f), hf]
          rfl
        simp [hvd, hfd]
  · intro me hme k
    unfold create_mesh at hme
    cases hv : mapReads (readTriple v) (pyRangeStep3 v.length) with
    | none => rw [hv] at hme; cases hme
    | some verts =>
      rw [hv] at hme
      cases hf : mapReads (readTriple f) (pyRangeStep3 f.length) with
      | none => rw [hf] at hme; cases hme
      | some fcs =>
        rw [hf] at hme
        cases hme
        exact ⟨buffer_chunk_get v verts hv k, buffer_chunk_get f fcs hf k⟩

/-- Witness for C10 at one vertex triple and one face triple. -/
theorem create_mesh_chunking_witness :
    (Mesh.mk [(1, 2, 3)] [(0, 1, 2)]).vertices.get? 0 = tripleAt [(1 : ℚ), 2, 3] 0 ∧
    (Mesh.mk [(1, 2, 3)] [(0, 1, 2)]).faces.get? 0 = tripleAt [0, 1, 2] 0 :=
  (create_mesh_chunking [1, 2, 3] [0, 1, 2]).2 (Mesh.mk [(1, 2, 3)] [(0, 1, 2)]) rfl 0
